import Mathlib

set_option maxHeartbeats 1000000

/-! # Embedding of the skill-matching engine

Shallow embedding of the matching-and-aggregation engine of `compare.py`
and of the skill deduplicator of `parse_to_json.py`.  Python strings are
modelled through their character lists, Python floats through ℚ for the
threshold logic of the pipeline and through ℝ for the cosine-similarity
kernel.  The Embedding Provider composed with cosine similarity is
abstracted as a function from the two phrase texts to the similarity
value, which is exactly how the pipeline consumes the similarity matrix. -/

/-- Whitespace test used by the model of Python `str.strip`. -/
def pyWS (c : Char) : Bool := c.isWhitespace

/-- Drop trailing whitespace from a character list. -/
def rstripChars (x : List Char) : List Char :=
  (x.reverse.dropWhile pyWS).reverse

/-- Drop leading and trailing whitespace from a character list. -/
def stripChars (l : List Char) : List Char :=
  rstripChars (l.dropWhile pyWS)

/-- Models Python `str.strip()`. -/
def pyStrip (s : String) : String := String.mk (stripChars s.data)

/-- Models Python `str.lower()` (ASCII case folding). -/
def pyLower (s : String) : String := String.mk (s.data.map Char.toLower)

/-- Split a character list on a separator character, keeping empty
    segments; models Python `str.split(sep)` for one-character `sep`. -/
def splitChars (sep : Char) : List Char → List (List Char)
  | [] => [[]]
  | c :: rest =>
    match splitChars sep rest with
    | [] => [[]]
    | t :: ts => if c = sep then [] :: t :: ts else (c :: t) :: ts

/-- Models Python `str.split(sep)` for a one-character separator. -/
def pySplit (sep : Char) (s : String) : List String :=
  (splitChars sep s.data).map String.mk

/-- A raw job-field value: a JSON list of strings or a scalar string
    (`compare.py` lines 55-61 branch on `isinstance(val, list)`). -/
inductive FieldVal where
  | list (xs : List String)
  | scalar (s : String)
deriving DecidableEq

/-- A job posting record; `none` models an absent or null field. -/
structure Job where
  title : String
  company : String
  requirements : Option FieldVal
  technologies_expected : Option FieldVal
  technologies_optional : Option FieldVal
  specializations : Option FieldVal
deriving DecidableEq

/-- Tokens of a scalar field value: split on `';'`, then each part on
    `','`, strip every token and drop the empty ones
    (`compare.py` lines 59-61). -/
def splitTokens (s : String) : List String :=
  (pySplit ';' s).flatMap
    (fun part => ((pySplit ',' part).map pyStrip).filter (fun x => decide (x ≠ "")))

/-- The cleaning pass of `compare.py` line 62: keep the truthy items whose
    strip is non-empty, stripped. -/
def finalClean (items : List String) : List String :=
  (items.filter (fun x => decide (x ≠ "") && decide (pyStrip x ≠ ""))).map pyStrip

/-- Phrases contributed by one raw field value (`compare.py` lines 53-62);
    a falsy value (absent, empty list or empty string) contributes
    nothing. -/
def extractField : Option FieldVal → List String
  | none => []
  | some (.list xs) => if xs = [] then [] else finalClean xs
  | some (.scalar s) => if s = "" then [] else finalClean (splitTokens s)

/-- The four skill-bearing fields in the order `compare.py` line 52
    iterates them. -/
def jobFields (j : Job) : List (Option FieldVal) :=
  [j.requirements, j.technologies_expected, j.technologies_optional, j.specializations]

/-- All job-skill phrases of one posting: fields processed in their fixed
    order, phrases appended in turn (`compare.py` lines 51-62). -/
def jobSkillTexts (j : Job) : List String :=
  (jobFields j).foldl (fun acc f => acc ++ extractField f) []

/-- The constant `SIMILARITY_THRESHOLD = 0.50` (`compare.py` line 11): the rational
    one half, given in normal form so that comparisons evaluate. -/
def similarityThreshold : ℚ := ⟨1, 2, by decide, Nat.coprime_one_left 2⟩

/-- One row of the per-posting results table
    (`compare.py` lines 69-75 and 92-98). -/
structure JobResult where
  job_title : String
  company : String
  matched_job_skills : ℕ
  total_job_skills : ℕ
  ratioValue : ℚ
deriving DecidableEq

/-- The match decision of one (job phrase, study skill) pair: similarity
    at least the threshold; `compare.py` lines 83 and 86 use `>=`. -/
def isMatch (sim : String → String → ℚ) (p sk : String) : Bool :=
  decide (similarityThreshold ≤ sim p sk)

/-- Models `job_skill_counter[skill] = job_skill_counter.get(skill, 0) + 1`
    (`compare.py` line 66) on an insertion-ordered dictionary, modelled as
    an association list with new keys appended at the end. -/
def bump : List (String × ℕ) → String → List (String × ℕ)
  | [], k => [(k, 1)]
  | (k2, c) :: rest, k =>
    if k2 = k then (k2, c + 1) :: rest else (k2, c) :: bump rest k

/-- Sum of all frequency counts of the counter dictionary. -/
def counterTotal (m : List (String × ℕ)) : ℕ := (m.map (fun e => e.2)).sum

/-- The mutable accumulators of the main loop (`compare.py` lines 42-44). -/
structure EngineState where
  results : List JobResult
  counts : List ℕ
  counter : List (String × ℕ)
deriving DecidableEq

/-- One iteration of the main loop over a posting (`compare.py` lines
    46-98): count the phrase occurrences, then either record a zero row for
    a phrase-less posting or compute the match statistics; `sim` gives the
    entry of the similarity matrix for a (job phrase, study skill) pair. -/
def processJob (sim : String → String → ℚ) (skills : List String)
    (st : EngineState) (j : Job) : EngineState :=
  let texts := jobSkillTexts j
  let counter := texts.foldl bump st.counter
  if texts = [] then
    let row : JobResult :=
      { job_title := j.title, company := j.company,
        matched_job_skills := 0, total_job_skills := 0, ratioValue := 0 }
    { results := st.results ++ [row], counts := st.counts, counter := counter }
  else
    let matched := texts.countP (fun p => skills.any (fun sk => isMatch sim p sk))
    let colMatches := skills.map (fun sk => texts.any (fun p => isMatch sim p sk))
    let counts := (st.counts.zip colMatches).map (fun ab => ab.1 + (if ab.2 then 1 else 0))
    let total := texts.length
    let ratio : ℚ := if 0 < total then (matched : ℚ) / (total : ℚ) else 0
    let row : JobResult :=
      { job_title := j.title, company := j.company,
        matched_job_skills := matched, total_job_skills := total, ratioValue := ratio }
    { results := st.results ++ [row], counts := counts, counter := counter }

/-- The initial accumulators (`compare.py` lines 42-44). -/
def initState (skills : List String) : EngineState :=
  { results := [], counts := List.replicate skills.length 0, counter := [] }

/-- The whole main loop (`compare.py` lines 46-98). -/
def runJobs (sim : String → String → ℚ) (skills : List String)
    (jobs : List Job) : EngineState :=
  jobs.foldl (processJob sim skills) (initState skills)

/-- First index of the maximum of a list: models `pandas.Series.idxmax`,
    which returns the first position of the maximum and raises ValueError
    on an empty series; `none` models that error (`compare.py` line 107). -/
def idxmax (l : List ℕ) : Option ℕ :=
  match l.max? with
  | none => none
  | some m => some (l.indexOf m)

/-- The headline study-skill fact (`compare.py` lines 107-109); `none`
    models the unguarded ValueError on an empty coverage array. -/
def summaryHeadline (skills : List String) (counts : List ℕ) : Option (String × ℕ) :=
  match idxmax counts with
  | none => none
  | some i => some (skills.getD i "", counts.getD i 0)

/-- Models `sort_values(by=key, ascending=False)`: pandas argsorts the reversed
    column ascending and reverses the resulting index order
    (`pandas.core.sorting.nargsort`), which is the stable descending sort
    whenever the underlying numpy argsort is stable; the underlying argsort
    is modelled as stable, which is exact for columns short enough for
    numpy's insertion-sort regime. -/
def pandasSortDesc {α : Type} (key : α → ℕ) (l : List α) : List α :=
  ((l.reverse).insertionSort (fun a b => key a ≤ key b)).reverse

/-- The three tabular outputs (`compare.py` lines 100-102 and 128-142). -/
structure EngineOutput where
  results : List JobResult
  coverage : List (String × ℕ)
  frequency : List (String × ℕ)
deriving DecidableEq

/-- The tabular production of a run: per-posting rows in processing order,
    the coverage table and the frequency table, the latter two sorted by
    count descending. -/
def runEngine (sim : String → String → ℚ) (skills : List String)
    (jobs : List Job) : EngineOutput :=
  let st := runJobs sim skills jobs
  { results := st.results,
    coverage := pandasSortDesc (fun r => r.2) (skills.zip st.counts),
    frequency := pandasSortDesc (fun r => r.2) st.counter }

/-- A deduplicator entry: a skill name together with its other attribute
    (the category of a TechnologySkill or the description of a SoftSkill,
    `models.py`). -/
structure ExtractedSkill where
  name : String
  info : String
deriving DecidableEq

/-- The dedup key: the name lowercased then stripped
    (`parse_to_json.py` lines 27 and 33). -/
def skillKey (s : ExtractedSkill) : String := pyStrip (pyLower s.name)

/-- Models `parse_to_json.py` lines 26-35: insert a skill under its key only when
    the key is non-empty and not yet present; the Python dictionary keeps
    insertion order, modelled by appending at the end. -/
def addSkill (m : List (String × ExtractedSkill)) (s : ExtractedSkill) :
    List (String × ExtractedSkill) :=
  if skillKey s ≠ "" ∧ m.lookup (skillKey s) = none then m ++ [(skillKey s, s)] else m

/-- One document's worth of `add_extracted_skills`. -/
def addDoc (m : List (String × ExtractedSkill)) (doc : List ExtractedSkill) :
    List (String × ExtractedSkill) :=
  doc.foldl addSkill m

/-- Deduplication across a sequence of documents (`SkillDeduplicator`). -/
def dedupDocs (docs : List (List ExtractedSkill)) : List (String × ExtractedSkill) :=
  docs.foldl addDoc []

/-- Dot product of two embedding vectors. -/
noncomputable def dotR (a b : List ℝ) : ℝ := (List.zipWith (fun x y => x * y) a b).sum

/-- Euclidean norm of an embedding vector. -/
noncomputable def l2norm (a : List ℝ) : ℝ :=
  Real.sqrt ((a.map (fun x => x ^ 2)).sum)

/-- The clamp constant of `torch.nn.functional.normalize` (eps = 1e-12). -/
noncomputable def normEps : ℝ := 1 / 10 ^ 12

/-- Models `sentence_transformers.util.cos_sim` (`compare.py` line 82): both
    vectors are L2-normalized through `torch.nn.functional.normalize`,
    which divides by `max(‖v‖₂, eps)` with `eps = 1e-12`, and the matrix
    product of the normalized vectors is taken. -/
noncomputable def cosSim (a b : List ℝ) : ℝ :=
  dotR a b / (max (l2norm a) normEps * max (l2norm b) normEps)

/-- Modelled from the spec's words (§4.1), for the refinement comparison
    with `extractField`: a list field contributes its elements trimmed, a
    scalar field is split on semicolons then commas with every token
    trimmed, and empty tokens are dropped. -/
def specField : Option FieldVal → List String
  | none => []
  | some (.list xs) => (xs.map pyStrip).filter (fun t => decide (t ≠ ""))
  | some (.scalar s) =>
    (((pySplit ';' s).flatMap (fun part => pySplit ',' part)).map pyStrip).filter
      (fun t => decide (t ≠ ""))

/-- A constant similarity function used by concrete witnesses. -/
def onesim : String → String → ℚ := fun _ _ => 1

/-- A similarity function pinned exactly at the threshold, used by
    concrete witnesses. -/
def halfsim : String → String → ℚ := fun _ _ => similarityThreshold

/-- A posting whose only populated field is a one-element list. -/
def listJob : Job :=
  { title := "t", company := "c", requirements := some (.list ["x"]),
    technologies_expected := none, technologies_optional := none,
    specializations := none }

/-- A posting with no skill-bearing field populated. -/
def emptyJob : Job :=
  { title := "t", company := "c", requirements := none,
    technologies_expected := none, technologies_optional := none,
    specializations := none }

/-- A posting exercising both the scalar and the list branch of the
    normalizer. -/
def jEx : Job :=
  { title := "t", company := "c",
    requirements := some (.scalar " Python, SQL ;; C#"),
    technologies_expected := some (.list [" Git ", " ", ""]),
    technologies_optional := none, specializations := none }

/-! ## Theorems -/

/-- C1: with an empty study-skill vocabulary the coverage array is empty and
    the headline computation of `compare.py` line 107 lands in the error case
    (`pd.Series([]).idxmax()` raises ValueError, modelled by `none`): the run
    is not guarded and does not complete with a "none" headline. -/
theorem summary_unguarded_on_empty_vocab :
    (runJobs onesim [] [emptyJob]).counts = [] ∧
    summaryHeadline [] (runJobs onesim [] [emptyJob]).counts = none :=
  ⟨by decide, by decide⟩

/-- C6: a (job phrase, study skill) pair is classified as a match exactly
    when its similarity is at least `SIMILARITY_THRESHOLD`; in particular a
    pair whose similarity equals the threshold is a match. -/
theorem match_iff_threshold (sim : String → String → ℚ) (p sk : String) :
    (isMatch sim p sk = true ↔ similarityThreshold ≤ sim p sk)
    ∧ (sim p sk = similarityThreshold → isMatch sim p sk = true) := by
  constructor
  · simp [isMatch]
  · intro h
    simp [isMatch, h]

/-- Witness for C6 at a pair whose similarity is exactly the threshold. -/
theorem match_iff_threshold_witness : isMatch halfsim "a" "b" = true :=
  (match_iff_threshold halfsim "a" "b").2 rfl

/-- C9: the engine is a deterministic function of the vocabulary, the
    postings and the similarity oracle: two runs over identical inputs with
    extensionally equal deterministic providers produce identical
    per-posting, coverage and frequency tables. -/
theorem engine_deterministic (sim1 sim2 : String → String → ℚ)
    (skills : List String) (jobs : List Job)
    (h : ∀ p sk, sim1 p sk = sim2 p sk) :
    runEngine sim1 skills jobs = runEngine sim2 skills jobs := by
  have hs : sim1 = sim2 := funext fun p => funext fun sk => h p sk
  rw [hs]

/-- Witness for C9 at concrete inputs. -/
theorem engine_deterministic_witness :
    runEngine onesim ["a"] [listJob] = runEngine onesim ["a"] [listJob] :=
  engine_deterministic onesim onesim ["a"] [listJob] (fun _ _ => rfl)

/-- C4: every processed posting appends exactly one result row, whose
    matched count is the number of job phrases with at least one matching
    study skill, is at most the total, whose ratio is matched/total when
    the total is positive, and which is all zero for a phrase-less
    posting. -/
theorem posting_result_spec (sim : String → String → ℚ) (skills : List String)
    (st : EngineState) (j : Job) :
    ∃ r : JobResult,
      (processJob sim skills st j).results = st.results ++ [r]
      ∧ r.total_job_skills = (jobSkillTexts j).length
      ∧ r.matched_job_skills
          = (jobSkillTexts j).countP (fun p => skills.any (fun sk => isMatch sim p sk))
      ∧ r.matched_job_skills ≤ r.total_job_skills
      ∧ (0 < r.total_job_skills →
          r.ratioValue = (r.matched_job_skills : ℚ) / (r.total_job_skills : ℚ))
      ∧ (r.total_job_skills = 0 → r.matched_job_skills = 0 ∧ r.ratioValue = 0) := by
  by_cases h : jobSkillTexts j = []
  · refine ⟨JobResult.mk j.title j.company 0 0 0, ?_, ?_, ?_, ?_, ?_, ?_⟩
    · simp [processJob, h]
    · simp [h]
    · simp [h]
    · exact le_refl 0
    · intro h0
      exact absurd h0 (by simp)
    · intro _
      exact ⟨rfl, rfl⟩
  · have hlen : 0 < (jobSkillTexts j).length := List.length_pos.mpr h
    refine ⟨JobResult.mk j.title j.company
        ((jobSkillTexts j).countP (fun p => skills.any (fun sk => isMatch sim p sk)))
        ((jobSkillTexts j).length)
        (((jobSkillTexts j).countP (fun p => skills.any (fun sk => isMatch sim p sk)) : ℚ)
          / ((jobSkillTexts j).length : ℚ)),
      ?_, rfl, rfl, ?_, ?_, ?_⟩
    · simp [processJob, h, hlen]
    · exact List.countP_le_length _
    · intro _
      rfl
    · intro h0
      exact (Nat.pos_iff_ne_zero.mp hlen h0).elim

/-- Witness for C4 at concrete inputs. -/
theorem posting_result_spec_witness :
    ∃ r : JobResult,
      (processJob onesim ["a"] (initState ["a"]) listJob).results
          = (initState ["a"]).results ++ [r]
      ∧ r.total_job_skills = (jobSkillTexts listJob).length
      ∧ r.matched_job_skills
          = (jobSkillTexts listJob).countP
              (fun p => ["a"].any (fun sk => isMatch onesim p sk))
      ∧ r.matched_job_skills ≤ r.total_job_skills
      ∧ (0 < r.total_job_skills →
          r.ratioValue = (r.matched_job_skills : ℚ) / (r.total_job_skills : ℚ))
      ∧ (r.total_job_skills = 0 → r.matched_job_skills = 0 ∧ r.ratioValue = 0) :=
  posting_result_spec onesim ["a"] (initState ["a"]) listJob

/-- Incrementing a key adds exactly one to the stored count, starting from
    0 when the key is absent. -/
theorem bump_lookup_self (m : List (String × ℕ)) (k : String) :
    (bump m k).lookup k = some ((m.lookup k).getD 0 + 1) := by
  induction m with
  | nil => simp [bump, List.lookup]
  | cons e rest ih =>
    obtain ⟨k2, c⟩ := e
    by_cases h : k2 = k
    · subst h
      simp [bump, List.lookup]
    · have hb : (k == k2) = false := beq_eq_false_iff_ne.mpr (fun hh => h hh.symm)
      simp [bump, h, List.lookup, hb, ih]

/-- Incrementing a key leaves every other key's count unchanged. -/
theorem bump_lookup_other (m : List (String × ℕ)) (k k2 : String) (h : k2 ≠ k) :
    (bump m k).lookup k2 = m.lookup k2 := by
  have hb : (k2 == k) = false := beq_eq_false_iff_ne.mpr h
  induction m with
  | nil => simp [bump, List.lookup, hb]
  | cons e rest ih =>
    obtain ⟨k3, c⟩ := e
    by_cases h2 : k3 = k
    · subst h2
      simp [bump, List.lookup, hb]
    · cases h3 : (k2 == k3) <;> simp [bump, h2, List.lookup, h3, ih]

/-- Incrementing a key grows the total frequency mass by exactly one. -/
theorem counterTotal_bump (m : List (String × ℕ)) (k : String) :
    counterTotal (bump m k) = counterTotal m + 1 := by
  induction m with
  | nil => simp [bump, counterTotal]
  | cons e rest ih =>
    by_cases h : e.1 = k
    · simp [bump, h, counterTotal]
      omega
    · simp [bump, h, counterTotal] at ih ⊢
      omega

/-- Folding a phrase list into the counter adds its length to the total. -/
theorem counterTotal_foldl (l : List String) (m : List (String × ℕ)) :
    counterTotal (l.foldl bump m) = counterTotal m + l.length := by
  induction l generalizing m with
  | nil => simp
  | cons x l ih =>
    simp only [List.foldl_cons, ih, counterTotal_bump, List.length_cons]
    omega

/-- Both branches of the loop body update the counter by folding the
    posting's phrase list into it. -/
theorem processJob_counter (sim : String → String → ℚ) (skills : List String)
    (st : EngineState) (j : Job) :
    (processJob sim skills st j).counter = (jobSkillTexts j).foldl bump st.counter := by
  by_cases h : jobSkillTexts j = [] <;> simp [processJob, h]

/-- Total frequency mass accumulated along a run, from any start state. -/
theorem counterTotal_runJobs_aux (sim : String → String → ℚ) (skills : List String) :
    ∀ (jobs : List Job) (st : EngineState),
      counterTotal (jobs.foldl (processJob sim skills) st).counter
        = counterTotal st.counter + (jobs.map (fun j => (jobSkillTexts j).length)).sum := by
  intro jobs
  induction jobs with
  | nil => simp
  | cons j js ih =>
    intro st
    simp only [List.foldl_cons, ih, processJob_counter, counterTotal_foldl,
      List.map_cons, List.sum_cons]
    omega

/-- C5: every job-phrase occurrence increments its text's entry of the
    global frequency mapping by exactly one, starting from 0 for unseen
    text and leaving other entries unchanged; consequently the frequencies
    sum to the total number of phrase occurrences across all postings. -/
theorem frequency_spec :
    (∀ (m : List (String × ℕ)) (k : String),
        (bump m k).lookup k = some ((m.lookup k).getD 0 + 1)
        ∧ ∀ k2, k2 ≠ k → (bump m k).lookup k2 = m.lookup k2)
    ∧ (∀ (sim : String → String → ℚ) (skills : List String) (jobs : List Job),
        counterTotal (runJobs sim skills jobs).counter
          = (jobs.map (fun j => (jobSkillTexts j).length)).sum) := by
  constructor
  · intro m k
    exact ⟨bump_lookup_self m k, fun k2 h => bump_lookup_other m k k2 h⟩
  · intro sim skills jobs
    have h := counterTotal_runJobs_aux sim skills jobs (initState skills)
    simpa [runJobs, initState, counterTotal] using h

/-- Witness for C5 at concrete counters and keys. -/
theorem frequency_spec_witness :
    (bump [] "py").lookup "py" = some 1
    ∧ (bump [("a", 2)] "py").lookup "a" = some 2 := by
  constructor
  · have h := (frequency_spec.1 [] "py").1
    rw [h]
    decide
  · have h := (frequency_spec.1 [("a", 2)] "py").2 "a" (by decide)
    rw [h]
    decide

/-- Pointwise form of the coverage-counter update of `compare.py` line 87. -/
theorem zipIncr_getD : ∀ (l : List ℕ) (b : List Bool) (i : ℕ),
    i < l.length → i < b.length →
    ((l.zip b).map (fun ab => ab.1 + (if ab.2 then 1 else 0))).getD i 0
      = l.getD i 0 + (if b.getD i false then 1 else 0) := by
  intro l
  induction l with
  | nil =>
    intro b i hi _
    exact absurd hi (by simp)
  | cons x l ih =>
    intro b i hi hb
    cases b with
    | nil => exact absurd hb (by simp)
    | cons y b =>
      cases i with
      | zero => simp
      | succ i =>
        simp only [List.zip_cons_cons, List.map_cons, List.getD_cons_succ]
        exact ih b i (by simpa using hi) (by simpa using hb)

/-- In-range `getD` commutes with `map`. -/
theorem getD_map_of_lt {α β : Type} (f : α → β) (dv : β) (dw : α) :
    ∀ (l : List α) (i : ℕ), i < l.length →
      (l.map f).getD i dv = f (l.getD i dw) := by
  intro l
  induction l with
  | nil =>
    intro i hi
    exact absurd hi (by simp)
  | cons x l ih =>
    intro i hi
    cases i with
    | zero => simp
    | succ i =>
      simp only [List.map_cons, List.getD_cons_succ]
      exact ih i (by simpa using hi)

/-- The loop body preserves the length of the coverage-counter list. -/
theorem processJob_counts_length (sim : String → String → ℚ) (skills : List String)
    (st : EngineState) (j : Job) (h : st.counts.length = skills.length) :
    (processJob sim skills st j).counts.length = skills.length := by
  by_cases ht : jobSkillTexts j = [] <;> simp [processJob, ht, h]

/-- The per-posting coverage delta: each study skill's counter gains one
    exactly when some phrase of the posting matches it. -/
theorem processJob_counts_getD (sim : String → String → ℚ) (skills : List String)
    (st : EngineState) (j : Job) (h : st.counts.length = skills.length)
    (i : ℕ) (hi : i < skills.length) :
    (processJob sim skills st j).counts.getD i 0
      = st.counts.getD i 0
        + (if (jobSkillTexts j).any (fun p => isMatch sim p (skills.getD i "")) then 1 else 0) := by
  by_cases ht : jobSkillTexts j = []
  · simp [processJob, ht]
  · have hz := zipIncr_getD st.counts
      (skills.map (fun sk => (jobSkillTexts j).any (fun p => isMatch sim p sk))) i
      (by omega) (by simpa using hi)
    have hm := getD_map_of_lt
      (fun sk => (jobSkillTexts j).any (fun p => isMatch sim p sk)) false "" skills i hi
    have hcounts : (processJob sim skills st j).counts
        = (st.counts.zip (skills.map (fun sk => (jobSkillTexts j).any (fun p => isMatch sim p sk)))).map
            (fun ab => ab.1 + (if ab.2 then 1 else 0)) := by
      simp [processJob, ht]
    rw [hcounts, hz, hm]

/-- Each step changes any coverage entry by at most one. -/
theorem processJob_counts_getD_le (sim : String → String → ℚ) (skills : List String)
    (st : EngineState) (j : Job) (h : st.counts.length = skills.length) (i : ℕ) :
    (processJob sim skills st j).counts.getD i 0 ≤ st.counts.getD i 0 + 1 := by
  by_cases hi : i < skills.length
  · rw [processJob_counts_getD sim skills st j h i hi]
    split <;> omega
  · have hlen := processJob_counts_length sim skills st j h
    have : (processJob sim skills st j).counts.getD i 0 = 0 :=
      List.getD_eq_default _ _ (by omega)
    omega

/-- Coverage growth along a fold is bounded by the number of postings. -/
theorem counts_foldl_le (sim : String → String → ℚ) (skills : List String) (i : ℕ) :
    ∀ (jobs : List Job) (st : EngineState), st.counts.length = skills.length →
      (jobs.foldl (processJob sim skills) st).counts.getD i 0
        ≤ st.counts.getD i 0 + jobs.length := by
  intro jobs
  induction jobs with
  | nil =>
    intro st _
    simp
  | cons j js ih =>
    intro st h
    have h2 := processJob_counts_length sim skills st j h
    have h3 := ih (processJob sim skills st j) h2
    have h4 := processJob_counts_getD_le sim skills st j h i
    simp only [List.foldl_cons, List.length_cons]
    omega

/-- Every entry of the all-zero initial coverage list reads zero. -/
theorem replicate_getD (n i : ℕ) : (List.replicate n (0 : ℕ)).getD i 0 = 0 := by
  induction n generalizing i with
  | zero => simp
  | succ n ih =>
    cases i with
    | zero => simp [List.replicate]
    | succ i => simp [List.replicate, ih]

/-- C3: per processed posting, a study skill's coverage counter increases
    by exactly one when at least one phrase of the posting matches it and
    by zero otherwise; consequently every coverage count after a run is at
    most the number of postings processed. -/
theorem coverage_spec (sim : String → String → ℚ) (skills : List String) :
    (∀ (st : EngineState) (j : Job) (i : ℕ),
        st.counts.length = skills.length → i < skills.length →
        (processJob sim skills st j).counts.getD i 0
          = st.counts.getD i 0
            + (if (jobSkillTexts j).any (fun p => isMatch sim p (skills.getD i "")) then 1 else 0))
    ∧ (∀ (jobs : List Job) (i : ℕ),
        (runJobs sim skills jobs).counts.getD i 0 ≤ jobs.length) := by
  constructor
  · intro st j i h hi
    exact processJob_counts_getD sim skills st j h i hi
  · intro jobs i
    have h := counts_foldl_le sim skills i jobs (initState skills) (by simp [initState])
    simpa [initState, replicate_getD] using h

/-- Witness for C3: with one study skill and one matching posting the
    coverage counter rises from zero to one. -/
theorem coverage_spec_witness :
    (processJob onesim ["a"] (initState ["a"]) listJob).counts.getD 0 0
      = (initState ["a"]).counts.getD 0 0 + 1 := by
  have h := (coverage_spec onesim ["a"]).1 (initState ["a"]) listJob 0 (by decide) (by decide)
  have hc : ((jobSkillTexts listJob).any
      (fun p => isMatch onesim p (["a"].getD 0 ""))) = true := by decide
  rw [h, hc]
  simp

/-- Applying `dropWhile` to a list whose head fails the predicate is a no-op. -/
theorem dropWhile_of_head_false {α : Type} (p : α → Bool) (l : List α) (a : α)
    (hh : l.head? = some a) (hp : p a = false) : l.dropWhile p = l := by
  cases l with
  | nil => simp at hh
  | cons x xs =>
    simp only [List.head?_cons, Option.some.injEq] at hh
    subst hh
    simp [List.dropWhile_cons, hp]

/-- Applying `dropWhile` twice equals applying it once. -/
theorem dropWhile_dropWhile {α : Type} (p : α → Bool) (l : List α) :
    (l.dropWhile p).dropWhile p = l.dropWhile p := by
  have h := List.head?_dropWhile_not p l
  cases hh : (l.dropWhile p).head? with
  | none =>
    have hnil : l.dropWhile p = [] := by
      cases hcase : l.dropWhile p <;> simp [hcase] at hh ⊢
    simp [hnil]
  | some a =>
    rw [hh] at h
    exact dropWhile_of_head_false p _ a hh h

/-- Dropping trailing whitespace cannot create leading whitespace. -/
theorem rstrip_dropWhile_self (x : List Char) (hx : x.dropWhile pyWS = x) :
    (rstripChars x).dropWhile pyWS = rstripChars x := by
  cases hr : rstripChars x with
  | nil => simp
  | cons a rs =>
    have hsplit : x = rstripChars x ++ (x.reverse.takeWhile pyWS).reverse := by
      have h2 := congrArg List.reverse (List.takeWhile_append_dropWhile pyWS x.reverse)
      rw [List.reverse_append, List.reverse_reverse] at h2
      rw [rstripChars]
      exact h2.symm
    have hhead : x.head? = some a := by
      rw [hsplit, hr]
      simp
    have hpa : pyWS a = false := by
      cases hx2 : x with
      | nil =>
        rw [hx2] at hhead
        simp at hhead
      | cons b t =>
        rw [hx2] at hhead
        simp only [List.head?_cons, Option.some.injEq] at hhead
        subst hhead
        rw [hx2] at hx
        by_contra hcon
        have hture : pyWS b = true := by
          revert hcon
          cases pyWS b <;> simp
        rw [List.dropWhile_cons, hture] at hx
        simp at hx
        have hlen := congrArg List.length hx
        have hle := (List.dropWhile_sublist (l := t) pyWS).length_le
        simp at hlen
        omega
    exact dropWhile_of_head_false pyWS (a :: rs) a (by simp) hpa

/-- Stripping both ends of a character list is idempotent. -/
theorem stripChars_idem (l : List Char) : stripChars (stripChars l) = stripChars l := by
  unfold stripChars
  rw [rstrip_dropWhile_self (l.dropWhile pyWS) (dropWhile_dropWhile pyWS l)]
  unfold rstripChars
  rw [List.reverse_reverse, dropWhile_dropWhile]

/-- Stripping the empty string yields the empty string. -/
theorem pyStrip_empty : pyStrip "" = "" := rfl

/-- Python `str.strip` is idempotent. -/
theorem pyStrip_idem (s : String) : pyStrip (pyStrip s) = pyStrip s := by
  unfold pyStrip
  rw [show (String.mk (stripChars s.data)).data = stripChars s.data from rfl]
  rw [stripChars_idem]

/-- The final cleaning pass is the identity on a list of non-empty
    stripped tokens. -/
theorem finalClean_of_clean (l : List String)
    (h : ∀ t ∈ l, pyStrip t = t ∧ t ≠ "") : finalClean l = l := by
  unfold finalClean
  have h1 : l.filter (fun x => decide (x ≠ "") && decide (pyStrip x ≠ "")) = l := by
    rw [List.filter_eq_self]
    intro a ha
    obtain ⟨hfix, hne⟩ := h a ha
    simp [hne, hfix]
  rw [h1]
  have h2 : l.map pyStrip = l.map id := by
    apply List.map_congr_left
    intro a ha
    exact (h a ha).1
  rw [h2, List.map_id]

/-- Every token produced by the scalar-field splitter is a non-empty
    fixed point of stripping. -/
theorem splitTokens_mem (s t : String) (ht : t ∈ splitTokens s) :
    pyStrip t = t ∧ t ≠ "" := by
  unfold splitTokens at ht
  rw [List.mem_flatMap] at ht
  obtain ⟨part, _, hmem⟩ := ht
  rw [List.mem_filter] at hmem
  obtain ⟨hmap, hne⟩ := hmem
  rw [List.mem_map] at hmap
  obtain ⟨x, _, rfl⟩ := hmap
  refine ⟨pyStrip_idem x, ?_⟩
  simpa using hne

/-- The source normalizer field-for-field equals the spec's description. -/
theorem extractField_eq_specField (f : Option FieldVal) :
    extractField f = specField f := by
  cases f with
  | none => rfl
  | some v =>
    cases v with
    | list xs =>
      by_cases h : xs = []
      · simp [extractField, specField, h]
      · simp only [extractField, specField, if_neg h]
        unfold finalClean
        rw [List.filter_map]
        congr 1
        apply List.filter_congr
        intro x _
        by_cases hx : x = ""
        · subst hx
          simp [pyStrip_empty]
        · simp [hx, Function.comp]
    | scalar s =>
      by_cases h : s = ""
      · subst h
        rfl
      · simp only [extractField, specField, if_neg h]
        rw [List.map_flatMap, List.filter_flatMap]
        have hsame : (fun part => ((pySplit ',' part).map pyStrip).filter
              (fun t => decide (t ≠ ""))) = (fun a => List.filter (fun t => decide (t ≠ ""))
              (List.map pyStrip (pySplit ',' a))) := rfl
        rw [show ((pySplit ';' s).flatMap (fun a => List.filter (fun t => decide (t ≠ ""))
              (List.map pyStrip (pySplit ',' a)))) = splitTokens s from rfl]
        apply finalClean_of_clean
        intro t ht
        exact splitTokens_mem s t ht

/-- Every phrase described by the spec's field contract is a non-empty
    stripped token. -/
theorem specField_mem (f : Option FieldVal) (p : String) (hp : p ∈ specField f) :
    p ≠ "" ∧ pyStrip p = p := by
  cases f with
  | none => simp [specField] at hp
  | some v =>
    cases v with
    | list xs =>
      simp only [specField] at hp
      rw [List.mem_filter] at hp
      obtain ⟨hmap, hne⟩ := hp
      rw [List.mem_map] at hmap
      obtain ⟨x, _, rfl⟩ := hmap
      exact ⟨by simpa using hne, pyStrip_idem x⟩
    | scalar s =>
      simp only [specField] at hp
      rw [List.mem_filter] at hp
      obtain ⟨hmap, hne⟩ := hp
      rw [List.mem_map] at hmap
      obtain ⟨x, _, rfl⟩ := hmap
      exact ⟨by simpa using hne, pyStrip_idem x⟩

/-- C8: the normalizer processes the four fields in their fixed order and
    concatenates their phrases; each field behaves as the spec describes
    (list fields: elements trimmed, scalar fields: split on semicolons then
    commas with tokens trimmed; empty tokens dropped), so every produced
    phrase is a non-empty trimmed string. -/
theorem normalizer_refines_spec (j : Job) :
    (jobSkillTexts j
        = specField j.requirements ++ specField j.technologies_expected
          ++ specField j.technologies_optional ++ specField j.specializations)
    ∧ ∀ p ∈ jobSkillTexts j, p ≠ "" ∧ pyStrip p = p := by
  have hfold : jobSkillTexts j
      = specField j.requirements ++ specField j.technologies_expected
        ++ specField j.technologies_optional ++ specField j.specializations := by
    simp only [jobSkillTexts, jobFields, List.foldl_cons, List.foldl_nil,
      List.nil_append, extractField_eq_specField]
  refine ⟨hfold, ?_⟩
  intro p hp
  rw [hfold] at hp
  simp only [List.mem_append] at hp
  rcases hp with (((h1 | h2) | h3) | h4)
  · exact specField_mem _ p h1
  · exact specField_mem _ p h2
  · exact specField_mem _ p h3
  · exact specField_mem _ p h4

/-- Witness for C8: the normalizer of a concrete posting, with one phrase
    checked to be a non-empty trimmed string. -/
theorem normalizer_refines_spec_witness :
    ("Python" ≠ "" ∧ pyStrip "Python" = "Python")
    ∧ jobSkillTexts jEx
        = specField jEx.requirements ++ specField jEx.technologies_expected
          ++ specField jEx.technologies_optional ++ specField jEx.specializations :=
  ⟨(normalizer_refines_spec jEx).2 "Python" (by decide), (normalizer_refines_spec jEx).1⟩

/-- Folding skills into the dictionary: a key reads as its previous binding
    when present, else as the first stream element carrying that key; the
    empty key is never bound. -/
theorem addAll_lookup : ∀ (l : List ExtractedSkill) (m : List (String × ExtractedSkill))
    (k : String), (l.foldl addSkill m).lookup k
      = (m.lookup k).or (if k = "" then none else l.find? (fun s2 => skillKey s2 == k)) := by
  intro l
  induction l with
  | nil =>
    intro m k
    simp
  | cons s l ih =>
    intro m k
    rw [List.foldl_cons, ih]
    unfold addSkill
    by_cases hcond : skillKey s ≠ "" ∧ m.lookup (skillKey s) = none
    · rw [if_pos hcond]
      obtain ⟨hks, hmn⟩ := hcond
      rw [List.lookup_append]
      by_cases hk : k = skillKey s
      · have hbeq : (k == skillKey s) = true := beq_iff_eq.mpr hk
        have h1 : ([(skillKey s, s)] : List (String × ExtractedSkill)).lookup k = some s := by
          rw [List.lookup_cons]
          simp [hbeq]
        have hmk : m.lookup k = none := by
          rw [hk]
          exact hmn
        have hkne : k ≠ "" := by
          rw [hk]
          exact hks
        have h2 : ((s :: l).find? (fun s2 => skillKey s2 == k)) = some s :=
          List.find?_cons_of_pos l (by simp [hk])
        rw [h1, hmk, h2]
        simp [hkne]
      · have hb : (k == skillKey s) = false := beq_eq_false_iff_ne.mpr hk
        have h1 : ([(skillKey s, s)] : List (String × ExtractedSkill)).lookup k = none := by
          rw [List.lookup_cons]
          simp [hb]
        have h2 : ((s :: l).find? (fun s2 => skillKey s2 == k))
            = l.find? (fun s2 => skillKey s2 == k) :=
          List.find?_cons_of_neg l (by simp only [beq_iff_eq]; exact fun hh => hk hh.symm)
        rw [h1, Option.or_none, h2]
    · rw [if_neg hcond]
      by_cases hk : k = skillKey s
      · by_cases hke : k = ""
        · simp [hke]
        · have hm : ∃ v, m.lookup k = some v := by
            cases hmv : m.lookup k with
            | none =>
              refine absurd ⟨?_, ?_⟩ hcond
              · rw [← hk]
                exact hke
              · rw [← hk]
                exact hmv
            | some v => exact ⟨v, rfl⟩
          obtain ⟨v, hv⟩ := hm
          rw [hv]
          simp
      · have h2 : ((s :: l).find? (fun s2 => skillKey s2 == k))
            = l.find? (fun s2 => skillKey s2 == k) :=
          List.find?_cons_of_neg l (by simp only [beq_iff_eq]; exact fun hh => hk hh.symm)
        rw [h2]

/-- The dictionary invariant: keys are exactly the non-empty dedup keys of
    the stored skills, and keys never repeat. -/
theorem addAll_inv : ∀ (l : List ExtractedSkill) (m : List (String × ExtractedSkill)),
    ((m.map Prod.fst).Nodup ∧ ∀ e ∈ m, e.1 = skillKey e.2 ∧ e.1 ≠ "") →
    (((l.foldl addSkill m).map Prod.fst).Nodup
      ∧ ∀ e ∈ l.foldl addSkill m, e.1 = skillKey e.2 ∧ e.1 ≠ "") := by
  intro l
  induction l with
  | nil =>
    intro m h
    simpa using h
  | cons s l ih =>
    intro m h
    rw [List.foldl_cons]
    apply ih
    unfold addSkill
    by_cases hcond : skillKey s ≠ "" ∧ m.lookup (skillKey s) = none
    · rw [if_pos hcond]
      obtain ⟨hks, hmn⟩ := hcond
      have hnotin : skillKey s ∉ m.map Prod.fst := by
        rw [List.lookup_eq_none_iff] at hmn
        intro hmem
        rw [List.mem_map] at hmem
        obtain ⟨e, he, heq⟩ := hmem
        exact absurd heq.symm (by simpa using hmn e he)
      constructor
      · rw [List.map_append, List.nodup_append]
        refine ⟨h.1, by simp, ?_⟩
        intro a ha
        simp only [List.map_cons, List.map_nil, List.mem_singleton]
        intro heq
        subst heq
        exact hnotin ha
      · intro e he
        rw [List.mem_append] at he
        rcases he with he | he
        · exact h.2 e he
        · rw [List.mem_singleton] at he
          subst he
          exact ⟨rfl, hks⟩
    · rw [if_neg hcond]
      exact h

/-- In a dictionary with pairwise distinct keys, membership determines the
    lookup result. -/
theorem lookup_of_mem_nodup : ∀ (m : List (String × ExtractedSkill))
    (e : String × ExtractedSkill), e ∈ m → (m.map Prod.fst).Nodup →
    m.lookup e.1 = some e.2 := by
  intro m
  induction m with
  | nil =>
    intro e he
    simp at he
  | cons f rest ih =>
    intro e he hnd
    rw [List.map_cons, List.nodup_cons] at hnd
    obtain ⟨hf, hrest⟩ := hnd
    rcases List.mem_cons.mp he with he1 | he2
    · subst he1
      obtain ⟨a, b⟩ := e
      simp
    · have hne : (e.1 == f.1) = false := by
        apply beq_eq_false_iff_ne.mpr
        intro heq
        exact hf (heq ▸ List.mem_map.mpr ⟨e, he2, rfl⟩)
      obtain ⟨a, b⟩ := f
      rw [List.lookup_cons]
      simp only [hne]
      exact ih e he2 hrest

/-- C10: the deduplicated vocabulary binds each distinct non-empty
    lowercased-and-trimmed name to exactly the first-encountered skill
    object across the document stream; later same-named entries are
    discarded and whitespace-only names are dropped. -/
theorem dedup_first_wins (docs : List (List ExtractedSkill)) :
    (∀ k : String, (dedupDocs docs).lookup k
        = if k = "" then none else docs.flatten.find? (fun s2 => skillKey s2 == k))
    ∧ (∀ e ∈ dedupDocs docs, e.1 = skillKey e.2 ∧ e.1 ≠ ""
        ∧ docs.flatten.find? (fun s2 => skillKey s2 == e.1) = some e.2)
    ∧ ((dedupDocs docs).map Prod.fst).Nodup := by
  have hflat : dedupDocs docs = docs.flatten.foldl addSkill [] := by
    unfold dedupDocs addDoc
    rw [List.foldl_flatten]
  have hinv := addAll_inv docs.flatten [] (by simp)
  refine ⟨?_, ?_, ?_⟩
  · intro k
    rw [hflat, addAll_lookup]
    simp
  · intro e he
    rw [hflat] at he
    obtain ⟨hkey, hne⟩ := hinv.2 e (hflat ▸ he)
    have h2 : (docs.flatten.foldl addSkill []).lookup e.1 = some e.2 :=
      lookup_of_mem_nodup _ e he hinv.1
    rw [addAll_lookup, List.lookup_nil, Option.none_or, if_neg hne] at h2
    exact ⟨hkey, hne, h2⟩
  · rw [hflat]
    exact hinv.1

/-- Witness for C10: two documents mentioning Python with different casing
    and spacing; the first object is kept. -/
theorem dedup_first_wins_witness :
    (dedupDocs [[ExtractedSkill.mk "Python" "Language"],
        [ExtractedSkill.mk " PYTHON " "Dup"]]).lookup "python"
      = some (ExtractedSkill.mk "Python" "Language") := by
  have h := (dedup_first_wins [[ExtractedSkill.mk "Python" "Language"],
      [ExtractedSkill.mk " PYTHON " "Dup"]]).1 "python"
  rw [h]
  decide

/-- A vector whose squared entries sum to zero is the zero vector. -/
theorem sq_sum_eq_zero (a : List ℝ) (h : (a.map (fun x => x ^ 2)).sum = 0) :
    ∀ x ∈ a, x = 0 := by
  induction a with
  | nil => simp
  | cons y t ih =>
    rw [List.map_cons, List.sum_cons] at h
    have h1 : (0 : ℝ) ≤ y ^ 2 := sq_nonneg y
    have h2 : (0 : ℝ) ≤ (t.map (fun x => x ^ 2)).sum := by
      apply List.sum_nonneg
      intro z hz
      obtain ⟨w, _, rfl⟩ := List.mem_map.mp hz
      exact sq_nonneg w
    have hy : y ^ 2 = 0 := by linarith
    have ht : (t.map (fun x => x ^ 2)).sum = 0 := by linarith
    intro x hx
    rcases List.mem_cons.mp hx with rfl | hx2
    · exact (pow_eq_zero_iff (by norm_num)).mp hy
    · exact ih ht x hx2

/-- A dot product against the zero vector on the left vanishes. -/
theorem zipWith_mul_zero_left : ∀ (a b : List ℝ), (∀ x ∈ a, x = 0) →
    (List.zipWith (fun x y => x * y) a b).sum = 0 := by
  intro a
  induction a with
  | nil =>
    intro b _
    simp
  | cons x t ih =>
    intro b h
    cases b with
    | nil => simp
    | cons y u =>
      have hx : x = 0 := h x (by simp)
      have hrest : ∀ z ∈ t, z = 0 := fun z hz => h z (by simp [hz])
      simp [hx, ih u hrest]

/-- A dot product against the zero vector on the right vanishes. -/
theorem zipWith_mul_zero_right : ∀ (a b : List ℝ), (∀ y ∈ b, y = 0) →
    (List.zipWith (fun x y => x * y) a b).sum = 0 := by
  intro a
  induction a with
  | nil =>
    intro b _
    simp
  | cons x t ih =>
    intro b h
    cases b with
    | nil => simp
    | cons y u =>
      have hy : y = 0 := h y (by simp)
      have hrest : ∀ z ∈ u, z = 0 := fun z hz => h z (by simp [hz])
      simp [hy, ih u hrest]

/-- A zero-norm vector is the zero vector. -/
theorem l2norm_eq_zero (a : List ℝ) (h : l2norm a = 0) : ∀ x ∈ a, x = 0 := by
  apply sq_sum_eq_zero
  have hge : 0 ≤ (a.map (fun x => x ^ 2)).sum := by
    apply List.sum_nonneg
    intro z hz
    obtain ⟨w, _, rfl⟩ := List.mem_map.mp hz
    exact sq_nonneg w
  have hle : (a.map (fun x => x ^ 2)).sum ≤ 0 := by
    unfold l2norm at h
    exact Real.sqrt_eq_zero'.mp h
  linarith

/-- C7 (amended): the computed similarity is zero whenever either vector
    has zero norm (the degenerate case is recovered locally, never an
    error), and it equals dot(a,b)/(‖a‖·‖b‖) whenever both norms are at
    least the normalize clamp eps = 1e-12. -/
theorem cosSim_spec (a b : List ℝ) :
    (l2norm a = 0 → cosSim a b = 0)
    ∧ (l2norm b = 0 → cosSim a b = 0)
    ∧ (normEps ≤ l2norm a → normEps ≤ l2norm b →
        cosSim a b = dotR a b / (l2norm a * l2norm b)) := by
  refine ⟨?_, ?_, ?_⟩
  · intro h
    have hz := l2norm_eq_zero a h
    unfold cosSim dotR
    rw [zipWith_mul_zero_left a b hz]
    simp
  · intro h
    have hz := l2norm_eq_zero b h
    unfold cosSim dotR
    rw [zipWith_mul_zero_right a b hz]
    simp
  · intro ha hb
    unfold cosSim
    rw [max_eq_left ha, max_eq_left hb]

/-- Witness for C7's amended contract at a zero vector and at unit
    vectors. -/
theorem cosSim_spec_witness :
    cosSim [(0 : ℝ)] [1] = 0
    ∧ cosSim [(1 : ℝ)] [1] = dotR [(1 : ℝ)] [1] / (l2norm [(1 : ℝ)] * l2norm [(1 : ℝ)]) := by
  constructor
  · apply (cosSim_spec [(0 : ℝ)] [1]).1
    unfold l2norm
    simp
  · apply (cosSim_spec [(1 : ℝ)] [1]).2.2 <;>
    · unfold l2norm normEps
      simp only [List.map_cons, List.map_nil, List.sum_cons, List.sum_nil, add_zero]
      rw [show ((1 : ℝ)) ^ 2 = 1 by norm_num, Real.sqrt_one]
      norm_num

/-- C7 counterexample: for the tiny-norm vector [1e-13] the computed
    similarity is 0.1 while dot(a,b)/(‖a‖·‖b‖) is 1, because normalize
    clamps the norm at eps = 1e-12. -/
theorem cosSim_formula_counterexample :
    cosSim [(1 : ℝ) / 10 ^ 13] [1]
      ≠ dotR [(1 : ℝ) / 10 ^ 13] [1] / (l2norm [(1 : ℝ) / 10 ^ 13] * l2norm [1]) := by
  have hx : (0 : ℝ) < 1 / 10 ^ 13 := by norm_num
  have hnorm1 : l2norm [(1 : ℝ) / 10 ^ 13] = 1 / 10 ^ 13 := by
    unfold l2norm
    simp only [List.map_cons, List.map_nil, List.sum_cons, List.sum_nil, add_zero]
    rw [Real.sqrt_sq hx.le]
  have hnorm2 : l2norm [(1 : ℝ)] = 1 := by
    unfold l2norm
    simp only [List.map_cons, List.map_nil, List.sum_cons, List.sum_nil, add_zero]
    rw [show ((1 : ℝ)) ^ 2 = 1 by norm_num, Real.sqrt_one]
  have hdot : dotR [(1 : ℝ) / 10 ^ 13] [1] = 1 / 10 ^ 13 := by
    unfold dotR
    simp
  have hmax1 : max (l2norm [(1 : ℝ) / 10 ^ 13]) normEps = 1 / 10 ^ 12 := by
    rw [hnorm1]
    unfold normEps
    rw [max_eq_right (by norm_num)]
  have hmax2 : max (l2norm [(1 : ℝ)]) normEps = 1 := by
    rw [hnorm2]
    unfold normEps
    rw [max_eq_left (by norm_num)]
  unfold cosSim
  rw [hdot, hmax1, hmax2, hnorm1, hnorm2]
  norm_num
